import Mathlib

/-!
Shallow embedding of `src/main.rs` (Advent of Code 2020 day 4 passport
validation) together with theorems settling the specification claims.

The pipeline in the source is
  CharReader (characters) → Tokens (Pair/Break tokens) → Passports
  (records) → validation → main (two counts).
Each Rust item is embedded as a Lean definition with the same name where
possible; iterators become total functions over lists.
-/

namespace Day4

/-! ## CharReader

`CharReader::next` drives a `BufReader`: it calls `read_line`, stores the
line reversed and pops characters from the end (so characters come out in
original order); `Ok(0)` moves to the `Done` state; `Err(e)` prints a
message and also moves to `Done` (the error is hidden from downstream —
see the comment in the source).  We model the sequence of `read_line`
results as a list: `Except.ok line` is a successful read of a (nonempty)
line, `Except.error ()` is an io::Error, and the end of the list is the
`Ok(0)` end-of-file result. -/

/-- One `read_line` result seen by `CharReader::next`. -/
abbrev ReadResult := Except Unit String

/-- The character stream `CharReader` emits for a given sequence of
`read_line` results.  A successful read contributes the line's characters
in order (reverse-then-pop-from-the-end in the source); an `Err` moves the
reader to `Done`, ending the stream. -/
def charReaderChars : List ReadResult → List Char
  | [] => []
  | Except.error _ :: _ => []
  | Except.ok line :: rest => line.data ++ charReaderChars rest

/-! ## Tokens -/

/-- Token emitted by the `Tokens` iterator: a key/value `Pair` or a
`Break` (an empty line). -/
inductive Token where
  | pair (key value : String)
  | brk
deriving DecidableEq, Repr

/-- State of the tokenizer between two characters, corresponding to the
position inside `Tokens::next` / `Tokens::parse_pair`:
`start` is the top of `Tokens::next` (about to read the first character of
a token), `inKey k` is the key-accumulation loop of `parse_pair` with `k`
accumulated so far (including the initial character passed in), and
`inVal k v` is the value-accumulation loop. -/
inductive TkState where
  | start
  | inKey (key : List Char)
  | inVal (key value : List Char)

/-- Runs `Tokens` to completion over the remaining characters, collecting
the emitted tokens, or stopping at the first tokenizer error with its
message.  Each branch mirrors one `match` arm of `Tokens::next` /
`Tokens::parse_pair` in the source. -/
def tokenizeAux : TkState → List Char → Except String (List Token)
  | .start, [] => .ok []
  | .inKey _, [] => .error "end of file in key"
  | .inVal k v, [] => .ok [.pair (String.mk k) (String.mk v)]
  | .start, c :: cs =>
      if c = '\n' then
        match tokenizeAux .start cs with
        | .ok ts => .ok (.brk :: ts)
        | .error e => .error e
      else tokenizeAux (.inKey [c]) cs
  | .inKey k, c :: cs =>
      if c = ':' then tokenizeAux (.inVal k []) cs
      else if c = '\n' then .error "newline in key"
      else tokenizeAux (.inKey (k ++ [c])) cs
  | .inVal k v, c :: cs =>
      if c = '\n' ∨ c = ' ' then
        match tokenizeAux .start cs with
        | .ok ts => .ok (.pair (String.mk k) (String.mk v) :: ts)
        | .error e => .error e
      else if c = ':' then .error ": in value"
      else tokenizeAux (.inVal k (v ++ [c])) cs

/-- The full token stream of a character stream (`CharReader::into_tokens`
followed by draining the iterator). -/
def tokenize (cs : List Char) : Except String (List Token) :=
  tokenizeAux .start cs

/-! ## Passports -/

/-- A passport's field mapping.  The source uses a
`HashMap<String, String>`; we model it as an association list whose keys
are kept unique by the overwriting `insertPair` below.  Iteration order is
never observed by the validation code. -/
abbrev Record := List (String × String)

/-- `HashMap::insert`: overwrite the value stored under `k` if the key is
present, otherwise add the new binding. -/
def insertPair (r : Record) (k v : String) : Record :=
  match r with
  | [] => [(k, v)]
  | p :: rest => if p.1 == k then (k, v) :: rest else p :: insertPair rest k v

/-- `HashMap::get`. -/
def lookupKey (r : Record) (k : String) : Option String :=
  (r.find? (fun p => p.1 == k)).map (fun p => p.2)

/-- `HashMap::contains_key`. -/
def containsKey (r : Record) (k : String) : Bool :=
  r.any (fun p => p.1 == k)

/-- Drains the `Passports` iterator: groups `Pair` tokens into records,
using `Break` tokens and end of input as separators.  `acc` is the
in-progress `pairs` map of `Passports::next`.  A `Break` (or the end)
with a nonempty map emits it as a record; with an empty map it is
ignored. -/
def assemble (acc : Record) : List Token → List Record
  | [] => if acc.isEmpty then [] else [acc]
  | .pair k v :: ts => assemble (insertPair acc k v) ts
  | .brk :: ts => if acc.isEmpty then assemble acc ts else acc :: assemble [] ts

/-- The record a single group of pairs assembles to: the `pairs.insert`
fold of `Passports::next` over the group, starting from the empty map. -/
def buildRecord (ps : List (String × String)) : Record :=
  ps.foldl (fun m p => insertPair m p.1 p.2) []

/-! ## Validation -/

/-- The `REQUIRED` field-name table. -/
def REQUIRED : List String := ["byr", "iyr", "eyr", "hgt", "hcl", "ecl", "pid"]

/-- `Passport::contains_min_fields`. -/
def contains_min_fields (r : Record) : Bool :=
  REQUIRED.all (fun key => containsKey r key)

/-- `Passport::contains_cid_field`. -/
def contains_cid_field (r : Record) : Bool :=
  containsKey r "cid"

/-- `Passport::contains_passport_required_fields`. -/
def contains_passport_required_fields (r : Record) : Bool :=
  r.length == REQUIRED.length + 1 && contains_min_fields r && contains_cid_field r

/-- `Passport::contains_north_pole_required_fields`. -/
def contains_north_pole_required_fields (r : Record) : Bool :=
  r.length == REQUIRED.length && contains_min_fields r

/-- `Passport::contains_required_fields`. -/
def contains_required_fields (r : Record) : Bool :=
  contains_passport_required_fields r || contains_north_pole_required_fields r

/-- Strip the single optional leading ASCII plus sign accepted by Rust's
`u32::from_str`. -/
def stripPlus (cs : List Char) : List Char :=
  match cs with
  | [] => []
  | c :: rest => if c = '+' then rest else c :: rest

/-- Numeric value of a base-10 digit string (most significant first). -/
def digitsToNat (ds : List Char) : Nat :=
  ds.foldl (fun acc c => acc * 10 + (c.toNat - '0'.toNat)) 0

/-- Rust's `str::parse::<u32>`: an optional leading `+` followed by one or
more ASCII digits and nothing else; fails on the empty string, on any
other character (including `-`, whitespace and non-ASCII digits), and on
values above `u32::MAX`. -/
def parseU32 (s : String) : Option Nat :=
  let ds := stripPlus s.data
  if !ds.isEmpty && ds.all Char.isDigit then
    if digitsToNat ds < 2 ^ 32 then some (digitsToNat ds) else none
  else none

/-- `Passport::value_in_valid_u32_range`. -/
def value_in_valid_u32_range (r : Record) (key : String) (lo hi : Nat) : Bool :=
  match lookupKey r key with
  | none => false
  | some v =>
    match parseU32 v with
    | none => false
    | some y => decide (lo ≤ y) && decide (y ≤ hi)

/-- `Passport::is_valid_byr`. -/
def is_valid_byr (r : Record) : Bool :=
  value_in_valid_u32_range r "byr" 1920 2002

/-- `Passport::is_valid_iyr`. -/
def is_valid_iyr (r : Record) : Bool :=
  value_in_valid_u32_range r "iyr" 2010 2020

/-- `Passport::is_valid_eyr`. -/
def is_valid_eyr (r : Record) : Bool :=
  value_in_valid_u32_range r "eyr" 2020 2030

/-- The anchored match of `HGT_REGEX` (`(\d+)(cm|in)` anchored on both
sides), returning the `amount` and `unit` captures.  The source's `\d` is
restricted to ASCII digits here; a value matching only via non-ASCII
digits fails the subsequent `parse::<u32>` in the source, so
`is_valid_hgt` computes the same answer either way. -/
def hgtCapture (cs : List Char) : Option (List Char × List Char) :=
  match cs.reverse with
  | u2 :: u1 :: dsRev =>
    if ([u1, u2] == ['c', 'm'] || [u1, u2] == ['i', 'n']) && !dsRev.reverse.isEmpty &&
        dsRev.reverse.all Char.isDigit
    then some (dsRev.reverse, [u1, u2]) else none
  | _ => none

/-- `Passport::is_valid_hgt`. -/
def is_valid_hgt (r : Record) : Bool :=
  match lookupKey r "hgt" with
  | none => false
  | some v =>
    match hgtCapture v.data with
    | none => false
    | some (ds, unit) =>
      match parseU32 (String.mk ds) with
      | none => false
      | some h =>
        (unit == ['c', 'm'] && decide (150 ≤ h) && decide (h ≤ 193)) ||
        (unit == ['i', 'n'] && decide (59 ≤ h) && decide (h ≤ 76))

/-- One character of the `[a-f0-9]` class of `HCL_REGEX`. -/
def isHexLower (c : Char) : Bool :=
  ('a' ≤ c && c ≤ 'f') || ('0' ≤ c && c ≤ '9')

/-- `Passport::is_valid_hcl`: the value matches `HCL_REGEX`
(`#` followed by exactly six `[a-f0-9]` characters). -/
def is_valid_hcl (r : Record) : Bool :=
  match lookupKey r "hcl" with
  | none => false
  | some v =>
    match v.data with
    | '#' :: rest => rest.length == 6 && rest.all isHexLower
    | _ => false

/-- `Passport::is_valid_ecl`: the value matches `ECL_REGEX` (one of the
seven literal eye colours). -/
def is_valid_ecl (r : Record) : Bool :=
  match lookupKey r "ecl" with
  | none => false
  | some v =>
    ["amb", "blu", "brn", "gry", "grn", "hzl", "oth"].any (fun s => s == v)

/-- `Passport::is_valid_pid`: the value matches `PID_REGEX` (exactly nine
digits; as for `hgt`, `\d` is modelled as ASCII digits). -/
def is_valid_pid (r : Record) : Bool :=
  match lookupKey r "pid" with
  | none => false
  | some v => v.data.length == 9 && v.data.all Char.isDigit

/-- `Passport::is_valid`. -/
def is_valid (r : Record) : Bool :=
  is_valid_byr r && is_valid_iyr r && is_valid_eyr r && is_valid_hgt r &&
  is_valid_hcl r && is_valid_ecl r && is_valid_pid r

/-! ## Driver -/

/-- The two counts `main` prints: records passing
`contains_required_fields`, and records passing it together with
`is_valid`. -/
def countsOf (rs : List Record) : Nat × Nat :=
  (rs.countP (fun p => contains_required_fields p),
   rs.countP (fun p => contains_required_fields p && is_valid p))

/-- The whole run of `main` on a character stream: tokenize, assemble,
count.  A tokenizer error panics in `Passports::next` before any output,
modelled as the error outcome. -/
def run (cs : List Char) : Except String (Nat × Nat) :=
  match tokenize cs with
  | .error e => .error e
  | .ok ts => .ok (countsOf (assemble [] ts))

/-- The whole run of `main` fed by `CharReader` over a sequence of
`read_line` results. -/
def runFromReads (reads : List ReadResult) : Except String (Nat × Nat) :=
  run (charReaderChars reads)

/-! ## Spec-side counting of groups (for claim C6)

The spec counts "non-empty field groups delimited by blank lines".  On
the token stream this is the number of maximal nonempty runs of `Pair`
tokens between `Break` tokens, written here following the spec's words:
the flag records whether we are inside a run that has already been
counted. -/

/-- Number of maximal nonempty runs of `Pair` tokens delimited by `Break`
tokens (or the ends of the stream); `inside` is true while within a run
that has already been counted. -/
def groupCount (inside : Bool) : List Token → Nat
  | [] => 0
  | .brk :: ts => groupCount false ts
  | .pair _ _ :: ts => if inside then groupCount true ts else 1 + groupCount true ts

/-- Number of nonempty `Pair` groups in a token stream. -/
def nonEmptyGroupCount (ts : List Token) : Nat :=
  groupCount false ts

/-! ## Well-formedness of emitted pairs (for claim C7) -/

/-- Well-formedness of an emitted key: no newline anywhere, and no `:`
after the first character (the first character is the arbitrary
non-newline character `Tokens::next` hands to `parse_pair`). -/
def keyOk (k : List Char) : Prop :=
  (∀ c ∈ k, c ≠ '\n') ∧ ∀ c ∈ k.tail, c ≠ ':'

/-- Well-formedness of an emitted value: no `:`, space or newline. -/
def valOk (v : List Char) : Prop :=
  ∀ c ∈ v, c ≠ ':' ∧ c ≠ ' ' ∧ c ≠ '\n'

/-- Invariant carried by the tokenizer state: the accumulated key is
nonempty and well formed, and the accumulated value is well formed. -/
def stOk : TkState → Prop
  | .start => True
  | .inKey k => k ≠ [] ∧ keyOk k
  | .inVal k v => (k ≠ [] ∧ keyOk k) ∧ valOk v

/-! ## Helper lemmas -/

/-- Counting the elements satisfying a conjunction of predicates never
exceeds counting those satisfying one conjunct. -/
theorem countP_and_le {α : Type} (l : List α) (p q : α → Bool) :
    l.countP (fun a => p a && q a) ≤ l.countP p := by
  induction l with
  | nil => simp
  | cons x xs ih =>
    simp only [List.countP_cons]
    cases hp : p x <;> cases hq : q x <;> simp [hp, hq] <;> omega

/-- A mid-stream read error truncates the character stream at the error:
the characters emitted are exactly those of the error-free prefix. -/
theorem charReaderChars_error_truncates (good : List String) (post : List ReadResult) :
    charReaderChars (good.map Except.ok ++ Except.error () :: post) =
      charReaderChars (good.map Except.ok) := by
  induction good with
  | nil => rfl
  | cons l ls ih => simp [charReaderChars, ih]

/-! ## Claim theorems -/

/-- C1 counterexample: with the sequence of reads "one good line, then an
io::Error", the run does not surface any error: it completes with the
normal `ok` outcome, and with exactly the same result as if the input had
simply ended before the failing read.  This refutes the claim that a
mid-stream read failure is propagated as a fatal I/O-kind error. -/
theorem C1_counterexample :
    runFromReads [Except.ok "byr:1990 iyr:2015\n", Except.error ()] = Except.ok (0, 0) ∧
    runFromReads [Except.ok "byr:1990 iyr:2015\n", Except.error ()] =
      runFromReads [Except.ok "byr:1990 iyr:2015\n"] := by
  exact ⟨rfl, rfl⟩

/-- C1 amended: a mid-stream read failure is suppressed by
`CharReader::next` (which prints a message and moves to `Done`), so the
pipeline treats it exactly as end-of-input: the run behaves as if the
input consisted of the successfully read prefix alone. -/
theorem C1_amended_read_error_is_eof (good : List String) (post : List ReadResult) :
    runFromReads (good.map Except.ok ++ Except.error () :: post) =
      runFromReads (good.map Except.ok) := by
  unfold runFromReads
  rw [charReaderChars_error_truncates]

/-- C9: on the three-line example input (two full groups separated by a
blank line, the second group missing most required fields), the program
reports a required-field count of 1 and a valid count of 1. -/
theorem C9_end_to_end_counts :
    run ("byr:1990 iyr:2015 eyr:2025\nhgt:180cm hcl:#abc123 ecl:blu pid:123456789\n\nbyr:1990 iyr:2015\n".data) =
      Except.ok (1, 1) := by
  rfl

/-- C10: whenever the run completes with a pair of counts, the count of
records passing both checks is at most the count of records passing the
required-field-set check, because the second filter conjoins `is_valid`
with the same `contains_required_fields` predicate over the same record
list. -/
theorem C10_valid_count_le_required_count (cs : List Char) (a b : Nat)
    (h : run cs = Except.ok (a, b)) : b ≤ a := by
  unfold run at h
  cases htok : tokenize cs with
  | error e => rw [htok] at h; cases h
  | ok ts =>
    rw [htok] at h
    have hcounts : countsOf (assemble [] ts) = (a, b) := by
      cases h; rfl
    unfold countsOf at hcounts
    cases hcounts
    exact countP_and_le _ _ _

/-- C10 witness: the theorem applied to the concrete empty input, whose
run evaluates to `ok (0, 0)`. -/
theorem C10_witness : run [] = Except.ok (0, 0) ∧ (0 : Nat) ≤ 0 :=
  ⟨rfl, C10_valid_count_le_required_count [] 0 0 rfl⟩

/-- C2 counterexample: `"+1990"` contains a sign character, yet the
field's range check succeeds — Rust's `u32::from_str` accepts one
optional leading `+`, so `byr:+1990` passes `is_valid_byr`. -/
theorem C2_counterexample :
    parseU32 "+1990" = some 1990 ∧ is_valid_byr [("byr", "+1990")] = true := by
  exact ⟨rfl, rfl⟩

/-- C2 amended: the integer parse used for byr, iyr and eyr accepts
exactly the base-10 digit strings preceded by at most one optional `+`
sign, with no whitespace and no other characters, and values up to
`u32::MAX`; and the per-field range check succeeds exactly when the
field is present, its value parses this way, and the parsed number lies
in the range. -/
theorem C2_amended_parse_characterization :
    (∀ (s : String) (n : Nat),
      parseU32 s = some n ↔
        ∃ ds : List Char, (s.data = ds ∨ s.data = '+' :: ds) ∧ ds ≠ [] ∧
          ds.all Char.isDigit = true ∧ n = digitsToNat ds ∧ n < 2 ^ 32) ∧
    (∀ (r : Record) (key : String) (lo hi : Nat),
      value_in_valid_u32_range r key lo hi = true ↔
        ∃ (s : String) (n : Nat), lookupKey r key = some s ∧ parseU32 s = some n ∧
          lo ≤ n ∧ n ≤ hi) := by
  constructor
  · intro s n
    constructor
    · intro h
      simp only [parseU32] at h
      split at h
      · rename_i hcond
        split at h
        · rename_i hlt
          cases h
          refine ⟨stripPlus s.data, ?_, ?_, ?_, rfl, hlt⟩
          · cases hsd : s.data with
            | nil => rw [hsd] at hcond; simp [stripPlus] at hcond
            | cons c rest =>
              by_cases hc : c = '+'
              · right
                subst hc
                simp [stripPlus]
              · left
                simp [stripPlus, hc]
          · intro hnil
            rw [hnil] at hcond; simp at hcond
          · simp only [Bool.and_eq_true] at hcond
            exact hcond.2
        · cases h
      · cases h
    · rintro ⟨ds, hds, hne, hdig, hn, hlt⟩
      subst hn
      have hstrip : stripPlus s.data = ds := by
        rcases hds with h | h
        · rw [h]
          cases ds with
          | nil => exact absurd rfl hne
          | cons d rest =>
            have hd : d ≠ '+' := by
              intro hd
              rw [List.all_cons, Bool.and_eq_true] at hdig
              rw [hd] at hdig
              simp [Char.isDigit] at hdig
            simp [stripPlus, hd]
        · rw [h]; simp [stripPlus]
      have hie : ds.isEmpty = false := by
        cases ds with
        | nil => exact absurd rfl hne
        | cons d rest => rfl
      simp only [parseU32, hstrip, hie, hdig, Bool.not_false, Bool.and_self, if_true]
      simp only [hlt, if_pos]
  · intro r key lo hi
    constructor
    · intro h
      unfold value_in_valid_u32_range at h
      split at h
      · cases h
      · rename_i v hl
        split at h
        · cases h
        · rename_i y hp
          simp only [Bool.and_eq_true, decide_eq_true_eq] at h
          exact ⟨v, y, hl, hp, h.1, h.2⟩
    · rintro ⟨s, n, hs, hn, h1, h2⟩
      unfold value_in_valid_u32_range
      rw [hs]
      simp [hn, h1, h2]

/-- C2 amended witness: the characterization applied at the concrete
value `"+1990"`. -/
theorem C2_amended_witness : parseU32 "+1990" = some 1990 :=
  (C2_amended_parse_characterization.1 "+1990" 1990).mpr
    ⟨['1', '9', '9', '0'], Or.inr rfl, by decide, by decide, by decide, by decide⟩

/-- C3: the required-field-set check passes exactly when all seven
required fields are present and the record has exactly 7 fields, or
exactly 8 fields one of which is `cid`; and the check never inspects
field values (replacing every value by an arbitrary function of the pair
leaves its outcome unchanged). -/
theorem C3_required_fields_characterization :
    ∀ r : Record,
      (contains_required_fields r = true ↔
        (contains_min_fields r = true ∧
          (r.length = 7 ∨ (r.length = 8 ∧ containsKey r "cid" = true)))) ∧
      (∀ f : String × String → String,
        contains_required_fields (r.map (fun p => (p.1, f p))) =
          contains_required_fields r) := by
  intro r
  have h7 : REQUIRED.length = 7 := rfl
  constructor
  · unfold contains_required_fields contains_passport_required_fields
      contains_north_pole_required_fields contains_cid_field
    rw [h7]
    simp only [Bool.or_eq_true, Bool.and_eq_true, beq_iff_eq]
    tauto
  · intro f
    unfold contains_required_fields contains_passport_required_fields
      contains_north_pole_required_fields contains_min_fields
      contains_cid_field containsKey
    simp [List.any_map, Function.comp_def]

/-- C3 witness: the characterization applied to a concrete record with
the seven required fields and no `cid`. -/
theorem C3_witness :
    contains_required_fields
      [("byr", "a"), ("iyr", "a"), ("eyr", "a"), ("hgt", "a"), ("hcl", "a"),
       ("ecl", "a"), ("pid", "a")] = true :=
  ((C3_required_fields_characterization _).1).mpr ⟨by decide, Or.inl (by decide)⟩

/-- A newline reached in the key loop before any `:` yields the
"newline in key" error. -/
theorem tokenizeAux_key_newline (k pre rest : List Char)
    (h : ∀ c ∈ pre, c ≠ ':' ∧ c ≠ '\n') :
    tokenizeAux (TkState.inKey k) (pre ++ '\n' :: rest) =
      Except.error "newline in key" := by
  induction pre generalizing k with
  | nil => simp [tokenizeAux]
  | cons c pre ih =>
    have hc := h c (List.mem_cons_self _ _)
    simp only [List.cons_append, tokenizeAux, if_neg hc.1, if_neg hc.2]
    exact ih _ (fun x hx => h x (List.mem_cons_of_mem _ hx))

/-- End of input reached in the key loop before any `:` yields the
"end of file in key" error. -/
theorem tokenizeAux_key_eof (k cs : List Char)
    (h : ∀ c ∈ cs, c ≠ ':' ∧ c ≠ '\n') :
    tokenizeAux (TkState.inKey k) cs = Except.error "end of file in key" := by
  induction cs generalizing k with
  | nil => rfl
  | cons c cs ih =>
    have hc := h c (List.mem_cons_self _ _)
    simp only [tokenizeAux, if_neg hc.1, if_neg hc.2]
    exact ih _ (fun x hx => h x (List.mem_cons_of_mem _ hx))

/-- A `:` reached in the value loop yields the ": in value" error. -/
theorem tokenizeAux_value_colon (k v pre rest : List Char)
    (h : ∀ c ∈ pre, c ≠ '\n' ∧ c ≠ ' ' ∧ c ≠ ':') :
    tokenizeAux (TkState.inVal k v) (pre ++ ':' :: rest) =
      Except.error ": in value" := by
  induction pre generalizing v with
  | nil => simp [tokenizeAux]
  | cons c pre ih =>
    have hc := h c (List.mem_cons_self _ _)
    have hbrk : ¬(c = '\n' ∨ c = ' ') := by
      rintro (h1 | h1)
      · exact hc.1 h1
      · exact hc.2.1 h1
    simp only [List.cons_append, tokenizeAux, if_neg hbrk, if_neg hc.2.2]
    exact ih _ (fun x hx => h x (List.mem_cons_of_mem _ hx))

/-- End of input in the value loop ends the value without error: the
remaining characters become the rest of the value and the pair is
emitted as the last token. -/
theorem tokenizeAux_value_eof (k v cs : List Char)
    (h : ∀ c ∈ cs, c ≠ '\n' ∧ c ≠ ' ' ∧ c ≠ ':') :
    tokenizeAux (TkState.inVal k v) cs =
      Except.ok [Token.pair (String.mk k) (String.mk (v ++ cs))] := by
  induction cs generalizing v with
  | nil => simp [tokenizeAux]
  | cons c cs ih =>
    have hc := h c (List.mem_cons_self _ _)
    have hbrk : ¬(c = '\n' ∨ c = ' ') := by
      rintro (h1 | h1)
      · exact hc.1 h1
      · exact hc.2.1 h1
    simp only [tokenizeAux, if_neg hbrk, if_neg hc.2.2]
    rw [ih (v ++ [c]) (fun x hx => h x (List.mem_cons_of_mem _ hx))]
    simp

/-- C4: tokenizer error behavior.  In the key loop, a newline before the
terminating `:` fails with "newline in key" and end of input fails with
"end of file in key"; in the value loop a `:` fails with ": in value"
while end of input ends the value without error; and any tokenizer error
aborts the whole run with that error (nothing is counted or reported). -/
theorem C4_tokenizer_errors_fatal :
    (∀ k pre rest : List Char, (∀ c ∈ pre, c ≠ ':' ∧ c ≠ '\n') →
      tokenizeAux (TkState.inKey k) (pre ++ '\n' :: rest) =
        Except.error "newline in key") ∧
    (∀ k cs : List Char, (∀ c ∈ cs, c ≠ ':' ∧ c ≠ '\n') →
      tokenizeAux (TkState.inKey k) cs = Except.error "end of file in key") ∧
    (∀ k v pre rest : List Char, (∀ c ∈ pre, c ≠ '\n' ∧ c ≠ ' ' ∧ c ≠ ':') →
      tokenizeAux (TkState.inVal k v) (pre ++ ':' :: rest) =
        Except.error ": in value") ∧
    (∀ k v cs : List Char, (∀ c ∈ cs, c ≠ '\n' ∧ c ≠ ' ' ∧ c ≠ ':') →
      tokenizeAux (TkState.inVal k v) cs =
        Except.ok [Token.pair (String.mk k) (String.mk (v ++ cs))]) ∧
    (∀ (cs : List Char) (e : String), tokenize cs = Except.error e →
      run cs = Except.error e) := by
  refine ⟨tokenizeAux_key_newline, tokenizeAux_key_eof, tokenizeAux_value_colon,
    tokenizeAux_value_eof, ?_⟩
  intro cs e h
  unfold run
  rw [h]

/-- C4 witness: the theorem applied at concrete malformed inputs. -/
theorem C4_witness :
    tokenizeAux (TkState.inKey ['a']) ['b', '\n'] = Except.error "newline in key" ∧
    tokenizeAux (TkState.inKey ['a']) ['b'] = Except.error "end of file in key" ∧
    tokenizeAux (TkState.inVal ['a'] []) ['b', ':'] = Except.error ": in value" ∧
    tokenizeAux (TkState.inVal ['a'] []) ['b'] = Except.ok [Token.pair "a" "b"] ∧
    run "ab\n".data = Except.error "newline in key" := by
  refine ⟨C4_tokenizer_errors_fatal.1 ['a'] ['b'] [] (by decide),
    C4_tokenizer_errors_fatal.2.1 ['a'] ['b'] (by decide),
    C4_tokenizer_errors_fatal.2.2.1 ['a'] [] ['b'] [] (by decide),
    C4_tokenizer_errors_fatal.2.2.2.1 ['a'] [] ['b'] (by decide),
    C4_tokenizer_errors_fatal.2.2.2.2 "ab\n".data "newline in key" (by rfl)⟩

/-- Nonempty lists are not `isEmpty`. -/
theorem isEmpty_eq_false_of_ne_nil {α : Type} {l : List α} (h : l ≠ []) :
    l.isEmpty = false := by
  cases l with
  | nil => exact absurd rfl h
  | cons x xs => rfl

/-- A list whose `isEmpty` is false is not nil. -/
theorem ne_nil_of_isEmpty_eq_false {α : Type} {l : List α} (h : l.isEmpty = false) :
    l ≠ [] := by
  cases l with
  | nil => cases h
  | cons x xs => exact List.cons_ne_nil x xs

/-- The anchored `HGT_REGEX` match succeeds with captures `(ds, unit)`
exactly when the value decomposes as a nonempty digit string followed by
one of the two units. -/
theorem hgtCapture_eq_some_iff (cs ds unit : List Char) :
    hgtCapture cs = some (ds, unit) ↔
      (cs = ds ++ unit ∧ (unit = ['c', 'm'] ∨ unit = ['i', 'n']) ∧ ds ≠ [] ∧
        ds.all Char.isDigit = true) := by
  constructor
  · intro h
    unfold hgtCapture at h
    split at h
    · rename_i u2 u1 dsRev heq
      split at h
      · rename_i hcond
        injection h with h
        cases h
        simp only [Bool.and_eq_true, Bool.or_eq_true, beq_iff_eq,
          Bool.not_eq_true'] at hcond
        refine ⟨?_, hcond.1.1, ne_nil_of_isEmpty_eq_false hcond.1.2, hcond.2⟩
        have hcs : cs = cs.reverse.reverse := (List.reverse_reverse cs).symm
        rw [hcs, heq]
        simp
      · cases h
    · cases h
  · rintro ⟨hcs, hunit, hne, hall⟩
    have hie : ds.isEmpty = false := isEmpty_eq_false_of_ne_nil hne
    rcases hunit with hu | hu <;> subst hu <;> subst hcs <;>
      simp [hgtCapture, List.reverse_append, hie, hall]

/-- C5: the hgt field validates exactly when its value is a nonempty
digit string followed immediately by `cm` or `in` and nothing else, and
the digits parse to an integer in [150,193] for `cm` or [59,76] for
`in`; concretely, `190cm` is valid while `190in` and a unitless `190`
are not. -/
theorem C5_hgt_validation :
    (∀ r : Record, is_valid_hgt r = true ↔
      ∃ (s : String) (ds unit : List Char) (n : Nat),
        lookupKey r "hgt" = some s ∧ s.data = ds ++ unit ∧ ds ≠ [] ∧
        ds.all Char.isDigit = true ∧ parseU32 (String.mk ds) = some n ∧
        ((unit = ['c', 'm'] ∧ 150 ≤ n ∧ n ≤ 193) ∨
         (unit = ['i', 'n'] ∧ 59 ≤ n ∧ n ≤ 76))) ∧
    is_valid_hgt [("hgt", "190cm")] = true ∧
    is_valid_hgt [("hgt", "190in")] = false ∧
    is_valid_hgt [("hgt", "190")] = false := by
  refine ⟨?_, rfl, rfl, rfl⟩
  intro r
  constructor
  · intro h
    unfold is_valid_hgt at h
    split at h
    · cases h
    · rename_i s hs
      split at h
      · cases h
      · rename_i ds unit hcap
        split at h
        · cases h
        · rename_i n hp
          obtain ⟨hdecomp, hunit, hne, hall⟩ := (hgtCapture_eq_some_iff _ _ _).mp hcap
          simp only [Bool.or_eq_true, Bool.and_eq_true, beq_iff_eq,
            decide_eq_true_eq] at h
          refine ⟨s, ds, unit, n, hs, hdecomp, hne, hall, hp, ?_⟩
          rcases h with ⟨⟨h1, h2⟩, h3⟩ | ⟨⟨h1, h2⟩, h3⟩
          · exact Or.inl ⟨h1, h2, h3⟩
          · exact Or.inr ⟨h1, h2, h3⟩
  · rintro ⟨s, ds, unit, n, hs, hdecomp, hne, hall, hp, hcase⟩
    have hunit : unit = ['c', 'm'] ∨ unit = ['i', 'n'] := by
      rcases hcase with ⟨h1, _⟩ | ⟨h1, _⟩
      · exact Or.inl h1
      · exact Or.inr h1
    have hcap : hgtCapture s.data = some (ds, unit) :=
      (hgtCapture_eq_some_iff _ _ _).mpr ⟨hdecomp, hunit, hne, hall⟩
    unfold is_valid_hgt
    rw [hs]
    simp only [hcap, hp]
    rcases hcase with ⟨h1, h2, h3⟩ | ⟨h1, h2, h3⟩ <;> subst h1 <;> simp [h2, h3]

/-- C5 witness: the characterization applied at a concrete record with
`hgt:180cm`. -/
theorem C5_witness : is_valid_hgt [("hgt", "180cm")] = true :=
  (C5_hgt_validation.1 [("hgt", "180cm")]).mpr
    ⟨"180cm", ['1', '8', '0'], ['c', 'm'], 180, rfl, by decide, by decide, by decide,
      by decide, Or.inl ⟨rfl, by decide, by decide⟩⟩

/-- Inserting a pair never produces an empty mapping. -/
theorem insertPair_ne_nil (r : Record) (k v : String) : insertPair r k v ≠ [] := by
  cases r with
  | nil => simp [insertPair]
  | cons p rest =>
    unfold insertPair
    split
    · exact List.cons_ne_nil _ _
    · exact List.cons_ne_nil _ _

/-- The number of records the assembler emits, both from an empty and
from a nonempty in-progress mapping. -/
theorem assemble_length (ts : List Token) :
    ((assemble [] ts).length = groupCount false ts) ∧
    (∀ acc : Record, acc ≠ [] → (assemble acc ts).length = groupCount true ts + 1) := by
  induction ts with
  | nil =>
    refine ⟨rfl, ?_⟩
    intro acc hacc
    simp [assemble, isEmpty_eq_false_of_ne_nil hacc, groupCount]
  | cons t ts ih =>
    cases t with
    | brk =>
      constructor
      · simpa [assemble, groupCount] using ih.1
      · intro acc hacc
        simp [assemble, isEmpty_eq_false_of_ne_nil hacc, groupCount, ih.1]
    | pair k v =>
      constructor
      · show (assemble (insertPair [] k v) ts).length = groupCount false (Token.pair k v :: ts)
        rw [ih.2 _ (insertPair_ne_nil _ _ _)]
        simp [groupCount]
        omega
      · intro acc hacc
        show (assemble (insertPair acc k v) ts).length = _
        rw [ih.2 _ (insertPair_ne_nil _ _ _)]
        simp [groupCount]

/-- C6: the assembler emits exactly one record per nonempty group of
`Pair` tokens: its output length equals the number of nonempty groups,
a `Break` seen with an empty in-progress mapping is ignored, a `Break`
seen with a nonempty mapping emits it and restarts, and end of input
emits the in-progress mapping exactly when it is nonempty. -/
theorem C6_assembler_emits_nonempty_groups :
    ∀ (ts : List Token) (acc : Record),
      ((assemble [] ts).length = nonEmptyGroupCount ts) ∧
      (assemble [] (Token.brk :: ts) = assemble [] ts) ∧
      (acc ≠ [] → assemble acc (Token.brk :: ts) = acc :: assemble [] ts) ∧
      (assemble [] ([] : List Token) = []) ∧
      (acc ≠ [] → assemble acc [] = [acc]) := by
  intro ts acc
  refine ⟨(assemble_length ts).1, rfl, ?_, rfl, ?_⟩
  · intro h
    simp [assemble, isEmpty_eq_false_of_ne_nil h]
  · intro h
    simp [assemble, isEmpty_eq_false_of_ne_nil h]

/-- C6 witness: the theorem applied at a concrete token stream and a
concrete nonempty mapping. -/
theorem C6_witness :
    assemble [("a", "b")] [Token.brk] = [[("a", "b")]] ∧
    assemble [("a", "b")] [] = [[("a", "b")]] ∧
    (assemble [] [Token.brk, Token.pair "a" "b"]).length =
      nonEmptyGroupCount [Token.brk, Token.pair "a" "b"] := by
  refine ⟨?_,
    (C6_assembler_emits_nonempty_groups [] [("a", "b")]).2.2.2.2 (by decide),
    (C6_assembler_emits_nonempty_groups [Token.brk, Token.pair "a" "b"] []).1⟩
  rw [(C6_assembler_emits_nonempty_groups [] [("a", "b")]).2.2.1 (by decide)]
  rfl

/-- Appending to a nonempty list commutes with `tail`. -/
theorem tail_append_singleton {α : Type} {l : List α} (c : α) (h : l ≠ []) :
    (l ++ [c]).tail = l.tail ++ [c] := by
  cases l with
  | nil => exact absurd rfl h
  | cons x xs => rfl

/-- Every pair in a successfully tokenized stream has a well-formed key
and value, provided the starting state satisfies the invariant. -/
theorem tokenizeAux_pairs_wf (cs : List Char) :
    ∀ (st : TkState) (ts : List Token), stOk st → tokenizeAux st cs = Except.ok ts →
      ∀ k v, Token.pair k v ∈ ts → keyOk k.data ∧ valOk v.data := by
  induction cs with
  | nil =>
    intro st ts hst h k v hmem
    cases st with
    | start => cases h; simp at hmem
    | inKey k' => cases h
    | inVal k' v' =>
      cases h
      simp only [List.mem_singleton, Token.pair.injEq] at hmem
      obtain ⟨hk, hv⟩ := hmem
      subst hk
      subst hv
      exact ⟨hst.1.2, hst.2⟩
  | cons c cs ih =>
    intro st ts hst h k v hmem
    cases st with
    | start =>
      unfold tokenizeAux at h
      split at h
      · rename_i hc
        split at h
        · rename_i ts' htok
          cases h
          simp only [List.mem_cons] at hmem
          rcases hmem with hmem | hmem
          · cases hmem
          · exact ih .start ts' trivial htok k v hmem
        · cases h
      · rename_i hc
        refine ih (.inKey [c]) ts ?_ h k v hmem
        refine ⟨List.cons_ne_nil _ _, ?_, ?_⟩
        · intro x hx
          rw [List.mem_singleton.mp hx]
          exact hc
        · intro x hx
          cases hx
    | inKey k' =>
      obtain ⟨hne, hkey⟩ := hst
      unfold tokenizeAux at h
      split at h
      · refine ih (.inVal k' []) ts ⟨⟨hne, hkey⟩, ?_⟩ h k v hmem
        intro x hx
        cases hx
      · split at h
        · cases h
        · rename_i hc1 hc2
          refine ih (.inKey (k' ++ [c])) ts ?_ h k v hmem
          refine ⟨by simp, ?_, ?_⟩
          · intro x hx
            rcases List.mem_append.mp hx with hx | hx
            · exact hkey.1 x hx
            · rw [List.mem_singleton.mp hx]
              exact hc2
          · rw [tail_append_singleton c hne]
            intro x hx
            rcases List.mem_append.mp hx with hx | hx
            · exact hkey.2 x hx
            · rw [List.mem_singleton.mp hx]
              exact hc1
    | inVal k' v' =>
      obtain ⟨⟨hne, hkey⟩, hval⟩ := hst
      unfold tokenizeAux at h
      split at h
      · rename_i hc
        split at h
        · rename_i ts' htok
          cases h
          simp only [List.mem_cons] at hmem
          rcases hmem with hmem | hmem
          · rw [Token.pair.injEq] at hmem
            obtain ⟨hk, hv⟩ := hmem
            subst hk
            subst hv
            exact ⟨hkey, hval⟩
          · exact ih .start ts' trivial htok k v hmem
        · cases h
      · split at h
        · cases h
        · rename_i hc1 hc2
          refine ih (.inVal k' (v' ++ [c])) ts ⟨⟨hne, hkey⟩, ?_⟩ h k v hmem
          intro x hx
          rcases List.mem_append.mp hx with hx | hx
          · exact hval x hx
          · rw [List.mem_singleton.mp hx]
            push_neg at hc1
            exact ⟨hc2, hc1.2, hc1.1⟩

/-- C7 counterexample: the input `::v` followed by a newline tokenizes
successfully to the single pair with key `":"` — an emitted key that
does contain a `:` character (as its first character), refuting the
claimed invariant. -/
theorem C7_counterexample :
    tokenize ("::v\n".data) = Except.ok [Token.pair ":" "v"] ∧
    (":".data.contains ':') = true := by
  exact ⟨rfl, rfl⟩

/-- C7 amended: every `Pair` a successful tokenization emits has a key
containing no newline and no `:` past its first character (the first
character is arbitrary, because `Tokens::next` hands any non-newline
character to `parse_pair` as the start of the key), and a value
containing no `:`, space or newline. -/
theorem C7_amended_pair_invariant (cs : List Char) (ts : List Token)
    (h : tokenize cs = Except.ok ts) :
    ∀ k v, Token.pair k v ∈ ts →
      ((∀ c ∈ k.data, c ≠ '\n') ∧ ∀ c ∈ k.data.tail, c ≠ ':') ∧
      (∀ c ∈ v.data, c ≠ ':' ∧ c ≠ ' ' ∧ c ≠ '\n') :=
  tokenizeAux_pairs_wf cs .start ts trivial h

/-- C7 amended witness: the invariant instantiated on the tokenization
of the concrete input `a:b` plus newline. -/
theorem C7_amended_witness :
    ((∀ c ∈ "a".data, c ≠ '\n') ∧ ∀ c ∈ "a".data.tail, c ≠ ':') ∧
    (∀ c ∈ "b".data, c ≠ ':' ∧ c ≠ ' ' ∧ c ≠ '\n') :=
  C7_amended_pair_invariant ("a:b\n".data) [Token.pair "a" "b"] rfl "a" "b"
    (List.mem_singleton.mpr rfl)

/-- Looking up a key after an insert: the inserted key maps to the new
value, every other key is unaffected. -/
theorem lookupKey_insertPair (m : Record) (k v x : String) :
    lookupKey (insertPair m k v) x = if x = k then some v else lookupKey m x := by
  induction m with
  | nil =>
    by_cases hx : x = k
    · subst hx
      simp [insertPair, lookupKey]
    · have : (k == x) = false := by simpa using fun h => hx h.symm
      simp [insertPair, lookupKey, List.find?_cons, this, hx]
  | cons p rest ih =>
    unfold insertPair
    split
    · rename_i hpk
      have hpk' : p.1 = k := by simpa using hpk
      by_cases hx : x = k
      · subst hx
        simp [lookupKey, List.find?_cons]
      · have h1 : (k == x) = false := by simpa using fun h => hx h.symm
        have h2 : (p.1 == x) = false := by
          rw [hpk']
          exact h1
        simp [lookupKey, List.find?_cons, h1, h2, hx]
    · rename_i hpk
      have hpk' : p.1 ≠ k := by simpa using hpk
      by_cases hpx : p.1 = x
      · have hx : x ≠ k := fun h => hpk' (hpx.trans h)
        have h1 : (p.1 == x) = true := by simpa using hpx
        simp [lookupKey, List.find?_cons, h1, hx]
      · have h1 : (p.1 == x) = false := by simpa using hpx
        simp only [lookupKey, List.find?_cons, h1] at ih ⊢
        simpa [lookupKey] using ih

/-- The key set after an insert: unchanged when the key was present,
extended by the key otherwise. -/
theorem mem_keys_insertPair (m : Record) (k v x : String) :
    x ∈ (insertPair m k v).map Prod.fst ↔ x ∈ m.map Prod.fst ∨ x = k := by
  induction m with
  | nil => simp [insertPair]
  | cons p rest ih =>
    unfold insertPair
    split
    · rename_i hpk
      have hpk' : p.1 = k := by simpa using hpk
      subst hpk'
      simp
      tauto
    · simp only [List.map_cons, List.mem_cons, ih]
      tauto

/-- Inserting preserves uniqueness of keys. -/
theorem nodup_keys_insertPair (m : Record) (k v : String)
    (h : (m.map Prod.fst).Nodup) : ((insertPair m k v).map Prod.fst).Nodup := by
  induction m with
  | nil => simp [insertPair]
  | cons p rest ih =>
    rw [List.map_cons, List.nodup_cons] at h
    unfold insertPair
    split
    · rename_i hpk
      have hpk' : p.1 = k := by simpa using hpk
      subst hpk'
      simpa using h
    · rename_i hpk
      have hpk' : p.1 ≠ k := by simpa using hpk
      rw [List.map_cons, List.nodup_cons]
      refine ⟨?_, ih h.2⟩
      rw [mem_keys_insertPair]
      rintro (hx | hx)
      · exact h.1 hx
      · exact hpk' hx

/-- Folding inserts over a list of pairs looks up to the last matching
pair, falling back to the starting map. -/
theorem lookupKey_foldl_insertPair (ps : List (String × String)) (m : Record)
    (x : String) :
    lookupKey (ps.foldl (fun m p => insertPair m p.1 p.2) m) x =
      ((ps.reverse.find? (fun p => p.1 == x)).map (fun p => p.2)).or
        (lookupKey m x) := by
  induction ps generalizing m with
  | nil => simp
  | cons p ps ih =>
    rw [List.foldl_cons, ih, List.reverse_cons, List.find?_append]
    by_cases hpx : p.1 = x
    · have h1 : (p.1 == x) = true := by simpa using hpx
      subst hpx
      cases hfind : ps.reverse.find? (fun q => q.1 == p.1) with
      | none =>
        simp [hfind, List.find?_cons, h1, lookupKey_insertPair, Option.or]
      | some q =>
        simp [hfind, Option.or]
    · have h1 : (p.1 == x) = false := by simpa using hpx
      have hxp : ¬x = p.1 := fun h => hpx h.symm
      cases hfind : ps.reverse.find? (fun q => q.1 == x) with
      | none =>
        simp [hfind, List.find?_cons, h1, lookupKey_insertPair, hxp, Option.or]
      | some q =>
        simp [hfind, Option.or]

/-- Assembling a single group of pair tokens (no breaks) onto a nonempty
in-progress mapping yields exactly one record: the insert-fold of the
group. -/
theorem assemble_pairs_fold (ps : List (String × String)) (acc : Record)
    (h : acc ≠ []) :
    assemble acc (ps.map (fun p => Token.pair p.1 p.2)) =
      [ps.foldl (fun m p => insertPair m p.1 p.2) acc] := by
  induction ps generalizing acc with
  | nil => simp [assemble, isEmpty_eq_false_of_ne_nil h]
  | cons p ps ih =>
    show assemble (insertPair acc p.1 p.2) (ps.map _) = _
    rw [ih _ (insertPair_ne_nil _ _ _)]
    rfl

/-- C8: a group with duplicate keys assembles to a record mapping each
key to the value of the last pair with that key in source order, the
assembly never fails, and the resulting record's keys are unique. -/
theorem C8_duplicate_keys_last_write_wins :
    ∀ (ps : List (String × String)) (x : String),
      (ps ≠ [] → assemble [] (ps.map (fun p => Token.pair p.1 p.2)) = [buildRecord ps]) ∧
      (lookupKey (buildRecord ps) x =
        (ps.reverse.find? (fun p => p.1 == x)).map (fun p => p.2)) ∧
      ((buildRecord ps).map Prod.fst).Nodup := by
  intro ps x
  refine ⟨?_, ?_, ?_⟩
  · intro hne
    cases ps with
    | nil => exact absurd rfl hne
    | cons p ps =>
      show assemble (insertPair [] p.1 p.2) (ps.map _) = _
      rw [assemble_pairs_fold _ _ (insertPair_ne_nil _ _ _)]
      rfl
  · rw [buildRecord, lookupKey_foldl_insertPair]
    cases ps.reverse.find? (fun p => p.1 == x) with
    | none => rfl
    | some q => rfl
  · rw [buildRecord]
    have : ∀ (qs : List (String × String)) (m : Record),
        (m.map Prod.fst).Nodup →
        ((qs.foldl (fun m p => insertPair m p.1 p.2) m).map Prod.fst).Nodup := by
      intro qs
      induction qs with
      | nil => intro m hm; exact hm
      | cons q qs ih =>
        intro m hm
        exact ih _ (nodup_keys_insertPair _ _ _ hm)
    exact this ps [] (by simp)

/-- C8 witness: a concrete group with a duplicated key `a` assembles to
the single record holding the later value. -/
theorem C8_witness :
    assemble [] [Token.pair "a" "1", Token.pair "a" "2"] =
      [buildRecord [("a", "1"), ("a", "2")]] ∧
    lookupKey (buildRecord [("a", "1"), ("a", "2")]) "a" = some "2" := by
  refine ⟨?_, ?_⟩
  · exact (C8_duplicate_keys_last_write_wins [("a", "1"), ("a", "2")] "a").1 (by decide)
  · rw [(C8_duplicate_keys_last_write_wins [("a", "1"), ("a", "2")] "a").2.1]
    rfl

end Day4
